import Mathlib

/-!
Verification of the `validating` library core (builtin.go) against its
natural-language specification.

The source under verification is the combinator and leaf-rule file of a Go
field-validation library.  Pure functions are embedded as Lean functions;
the Go `Errors` slice (nil vs non-nil-empty distinction is load-bearing) is
embedded as `Option (List Err)` where `none` models the nil slice.  External
collaborators (the `Errors` container, `Field`/`F`, `Schema` and the
top-level `Validate`) are not part of the source file and are modelled from
the specification, as marked on each of their doc comments.
-/

namespace Validating

/-- Modelled from the spec: an Error record is a named-field-plus-message
pair `(fieldName, message)` (spec section 3, "Error record"). -/
structure Err where
  fieldName : String
  message : String
deriving DecidableEq, Repr

/-- Modelled from the spec: an Error collection is an ordered sequence of
Error records with a nil-vs-empty distinction: `none` models the Go nil
slice, meaning success ("nil = no errors"); `some l` models a non-nil
collection, possibly empty. -/
def Errors : Type := Option (List Err)
deriving DecidableEq, Repr

/-- The nil (absent) error collection, modelling the Go nil slice. -/
def Errors.nil : Errors := (none : Option (List Err))

/-- Modelled from the spec: `Extend` is the mutating-append operation of the
external Errors type: it appends all records of the other collection, in
order, to the receiver; appending zero records leaves the receiver
unchanged (in particular a nil receiver stays nil, preserving the
nil-means-success convention). -/
def Errors.Extend (e other : Errors) : Errors :=
  match other with
  | (none : Option (List Err)) => e
  | some [] => e
  | some l =>
    match e with
    | (none : Option (List Err)) => some l
    | some l0 => some (l0 ++ l)

/-- Modelled from the spec: `NewErrors(fieldName, message)` constructs an
error collection holding the single record for that field and message. -/
def NewErrors (fieldName message : String) : Errors :=
  some [⟨fieldName, message⟩]

/-- Interpretation of the Go `time.Time` values that the dispatch rules
inspect: seconds and nanoseconds counted from the canonical zero instant
(January 1, year 1, 00:00:00 UTC).  `IsZero` reports the canonical zero
instant, which is distinct from the Unix epoch. -/
structure GoTime where
  sec : Int
  nsec : Int
deriving DecidableEq, Repr

/-- Go `time.Time.IsZero`: whether the instant is the canonical zero
instant (January 1, year 1, 00:00:00 UTC). -/
def GoTime.IsZero (t : GoTime) : Bool :=
  t.sec == 0 && t.nsec == 0

/-- The Unix epoch expressed in the `GoTime` interpretation: 62135596800
seconds after the canonical zero instant. -/
def unixEpoch : GoTime := ⟨62135596800, 0⟩

/-- The dynamic kind and value behind a field value reference
(`Field.ValuePtr`), one constructor per concrete Go type that the dispatch
switches in `Nonzero` and `Len` recognize: each scalar kind, its nullable
(pointer) version, and its slice version, plus a default constructor for
every other (unrecognized) type.  Unsigned integer kinds carry `Nat`,
signed kinds carry `Int`, floating kinds carry `Rat` (the embedding does
not model IEEE special values), strings carry `String` and instants carry
`GoTime`. -/
inductive Value where
  | uint8 (v : Nat)
  | optUint8 (v : Option Nat)
  | seqUint8 (v : List Nat)
  | uint16 (v : Nat)
  | optUint16 (v : Option Nat)
  | seqUint16 (v : List Nat)
  | uint32 (v : Nat)
  | optUint32 (v : Option Nat)
  | seqUint32 (v : List Nat)
  | uint64 (v : Nat)
  | optUint64 (v : Option Nat)
  | seqUint64 (v : List Nat)
  | int8 (v : Int)
  | optInt8 (v : Option Int)
  | seqInt8 (v : List Int)
  | int16 (v : Int)
  | optInt16 (v : Option Int)
  | seqInt16 (v : List Int)
  | int32 (v : Int)
  | optInt32 (v : Option Int)
  | seqInt32 (v : List Int)
  | int64 (v : Int)
  | optInt64 (v : Option Int)
  | seqInt64 (v : List Int)
  | float32 (v : Rat)
  | optFloat32 (v : Option Rat)
  | seqFloat32 (v : List Rat)
  | float64 (v : Rat)
  | optFloat64 (v : Option Rat)
  | seqFloat64 (v : List Rat)
  | uint (v : Nat)
  | optUint (v : Option Nat)
  | seqUint (v : List Nat)
  | int (v : Int)
  | optInt (v : Option Int)
  | seqInt (v : List Int)
  | bool (v : Bool)
  | optBool (v : Option Bool)
  | seqBool (v : List Bool)
  | string (v : String)
  | optString (v : Option String)
  | seqString (v : List String)
  | time (v : GoTime)
  | optTime (v : Option GoTime)
  | seqTime (v : List GoTime)
  | unrecognized (typeName : String)
deriving DecidableEq, Repr

/-- Modelled from the spec: a Field is a pair of a name and a reference to
the value to validate; the embedding stores the referenced value (with its
dynamic kind) directly. -/
structure Field where
  name : String
  valuePtr : Value
deriving DecidableEq, Repr

/-- Modelled from the spec: the external Field-construction helper
`F(name, valueRef)`. -/
def F (name : String) (valuePtr : Value) : Field :=
  ⟨name, valuePtr⟩

/-- A Validator exposes exactly one operation, `Validate(field) -> Errors`;
the embedding identifies a validator with that function. -/
def Validator : Type := Field → Errors

/-- FromFunc (`FromFunc`) creates a leaf validator from a function (the leaf adapter
`funcValidator` is the identity in this embedding). -/
def FromFunc (f : Field → Errors) : Validator := f

/-- Apply a validator to a field (Go `v.Validate(field)`). -/
def Validator.Validate (v : Validator) (field : Field) : Errors := v field

/-- Loop body of `All`: return the first non-nil child result, else nil. -/
def allLoop (field : Field) : List Validator → Errors
  | [] => Errors.nil
  | v :: rest =>
    let errs := v.Validate field
    if errs ≠ Errors.nil then errs else allLoop field rest

/-- All (`All`) creates a composite validator, which will succeed only when all
sub-validators succeed. -/
def All (validators : List Validator) : Validator :=
  FromFunc fun field => allLoop field validators

/-- And (`And`) is an alias of `All`. -/
def And : List Validator → Validator := All

/-- Loop body of `Any`: return nil at the first nil child result, else
accumulate every error via `Extend` and return the accumulator. -/
def anyLoop (field : Field) (errs : Errors) : List Validator → Errors
  | [] => errs
  | v :: rest =>
    let err := v.Validate field
    if err = Errors.nil then Errors.nil else anyLoop field (errs.Extend err) rest

/-- Any (`Any`) creates a composite validator, which will succeed as long as any
sub-validator succeeds. -/
def Any (validators : List Validator) : Validator :=
  FromFunc fun field => anyLoop field Errors.nil validators

/-- Or (`Or`) is an alias of `Any`. -/
def Or : List Validator → Validator := Any

/-- Message selection helper `getMsg`: it selects the message of a leaf rule: no message picks the
default, exactly one picks it, and more than one panics at construction
time; the panic is modelled as `none`. -/
def getMsg (validatorName defaultMsg : String) (msgs : List String) : Option String :=
  match msgs with
  | [] => some defaultMsg
  | [m] => some m
  | _ => none

/-- The evaluation function of the `Assert` validator for a resolved
message: fail with the message when the condition is false. -/
def assertValidate (b : Bool) (msg : String) (field : Field) : Errors :=
  if !b then NewErrors field.name msg else Errors.nil

/-- Assert (`Assert`) creates a leaf validator, which will succeed only when the
boolean expression evaluates to true; `none` models the construction-time
panic of `getMsg` on more than one message. -/
def Assert (b : Bool) (msgs : List String) : Option Validator :=
  (getMsg "Assert" "is invalid" msgs).map fun msg => FromFunc (assertValidate b msg)

/-- The dispatch switch of `Nonzero`, one arm per recognized case in source
order: `some valid` mirrors the assignments to `valid`, and `none` mirrors
the `default` arm (unrecognized type).  Plain scalars are valid when the
value differs from zero (`*t != 0`, for booleans `*t != false`, for strings
`*t != ""`, for instants `!t.IsZero()`), nullable scalars when the pointer
is non-nil (`*t != nil`), and slices when `len(*t) != 0`. -/
def nonzeroCheck : Value → Option Bool
  | .uint8 v => some (v != 0)
  | .optUint8 v => some (v != none)
  | .seqUint8 v => some (v.length != 0)
  | .uint16 v => some (v != 0)
  | .optUint16 v => some (v != none)
  | .seqUint16 v => some (v.length != 0)
  | .uint32 v => some (v != 0)
  | .optUint32 v => some (v != none)
  | .seqUint32 v => some (v.length != 0)
  | .uint64 v => some (v != 0)
  | .optUint64 v => some (v != none)
  | .seqUint64 v => some (v.length != 0)
  | .int8 v => some (v != 0)
  | .optInt8 v => some (v != none)
  | .seqInt8 v => some (v.length != 0)
  | .int16 v => some (v != 0)
  | .optInt16 v => some (v != none)
  | .seqInt16 v => some (v.length != 0)
  | .int32 v => some (v != 0)
  | .optInt32 v => some (v != none)
  | .seqInt32 v => some (v.length != 0)
  | .int64 v => some (v != 0)
  | .optInt64 v => some (v != none)
  | .seqInt64 v => some (v.length != 0)
  | .float32 v => some (v != 0)
  | .optFloat32 v => some (v != none)
  | .seqFloat32 v => some (v.length != 0)
  | .float64 v => some (v != 0)
  | .optFloat64 v => some (v != none)
  | .seqFloat64 v => some (v.length != 0)
  | .uint v => some (v != 0)
  | .optUint v => some (v != none)
  | .seqUint v => some (v.length != 0)
  | .int v => some (v != 0)
  | .optInt v => some (v != none)
  | .seqInt v => some (v.length != 0)
  | .bool v => some (v != false)
  | .optBool v => some (v != none)
  | .seqBool v => some (v.length != 0)
  | .string v => some (v != "")
  | .optString v => some (v != none)
  | .seqString v => some (v.length != 0)
  | .time v => some (!v.IsZero)
  | .optTime v => some (v != none)
  | .seqTime v => some (v.length != 0)
  | .unrecognized _ => none

/-- The evaluation function of the `Nonzero` validator for a resolved
message: dispatch on the kind via `nonzeroCheck`; the unrecognized arm
returns the fixed diagnostic immediately, otherwise failure carries the
resolved message. -/
def nonzeroValidate (msg : String) (field : Field) : Errors :=
  match nonzeroCheck field.valuePtr with
  | none => NewErrors field.name "of unrecognized type"
  | some valid => if !valid then NewErrors field.name msg else Errors.nil

/-- Nonzero (`Nonzero`) creates a leaf validator, which will succeed when the value
of the field is nonzero; `none` models the construction-time panic of
`getMsg` on more than one message. -/
def Nonzero (msgs : List String) : Option Validator :=
  (getMsg "Nonzero" "is zero valued" msgs).map fun msg => FromFunc (nonzeroValidate msg)

/-- Outcome of the dispatch switch of `Len`: the grouped first arm that
returns the fixed `cannot use validator` error, a length-bearing arm
measuring a length, or the `default` (unrecognized) arm. -/
inductive LenCase where
  | notApplicable
  | lenOf (l : Nat)
  | unrecognized
deriving DecidableEq, Repr

/-- The dispatch switch of `Len`, with the arms in source order: every
plain numeric scalar, every nullable numeric scalar, plain and nullable
boolean, nullable string, and plain and nullable instant fall in the
grouped not-applicable arm; every slice kind and the plain string measure
their length; anything else is unrecognized. -/
def lenDispatch : Value → LenCase
  | .uint8 _ | .optUint8 _ | .uint16 _ | .optUint16 _
  | .uint32 _ | .optUint32 _ | .uint64 _ | .optUint64 _
  | .int8 _ | .optInt8 _ | .int16 _ | .optInt16 _
  | .int32 _ | .optInt32 _ | .int64 _ | .optInt64 _
  | .float32 _ | .optFloat32 _ | .float64 _ | .optFloat64 _
  | .uint _ | .optUint _ | .int _ | .optInt _
  | .bool _ | .optBool _
  | .optString _
  | .time _ | .optTime _ => .notApplicable
  | .seqUint8 v => .lenOf v.length
  | .seqUint16 v => .lenOf v.length
  | .seqUint32 v => .lenOf v.length
  | .seqUint64 v => .lenOf v.length
  | .seqInt8 v => .lenOf v.length
  | .seqInt16 v => .lenOf v.length
  | .seqInt32 v => .lenOf v.length
  | .seqInt64 v => .lenOf v.length
  | .seqFloat32 v => .lenOf v.length
  | .seqFloat64 v => .lenOf v.length
  | .seqUint v => .lenOf v.length
  | .seqInt v => .lenOf v.length
  | .seqBool v => .lenOf v.length
  | .string v => .lenOf v.length
  | .seqString v => .lenOf v.length
  | .seqTime v => .lenOf v.length
  | .unrecognized _ => .unrecognized

/-- The evaluation function of the `Len` validator for resolved bounds and
message: the grouped arm and the default arm return their fixed messages
immediately; a length-bearing arm is valid when `l >= min && l <= max`. -/
def lenValidate (min max : Int) (msg : String) (field : Field) : Errors :=
  match lenDispatch field.valuePtr with
  | .notApplicable => NewErrors field.name "cannot use validator `Len`"
  | .unrecognized => NewErrors field.name "of an unrecognized type"
  | .lenOf l =>
    let valid := decide ((l : Int) ≥ min) && decide ((l : Int) ≤ max)
    if !valid then NewErrors field.name msg else Errors.nil

/-- Len (`Len`) creates a leaf validator, which will succeed when the length of
the value of the field is between min and max; `none` models the
construction-time panic of `getMsg` on more than one message. -/
def Len (min max : Int) (msgs : List String) : Option Validator :=
  (getMsg "Len" "with an invalid length" msgs).map fun msg =>
    FromFunc (lenValidate min max msg)

/-- Modelled from the spec: a Schema maps field references to validators;
the embedding uses an ordered association list (the spec declares iteration
order irrelevant to correctness). -/
def Schema : Type := List (Field × Validator)

/-- Modelled from the spec: the external top-level `Validate(schema)` entry
point iterates all schema entries, invokes each validator on its field, and
concatenates all resulting error collections, mapping "no entries failed"
to the absent (nil) result. -/
def Validate (schema : Schema) : Errors :=
  schema.foldl (fun errs p => errs.Extend (p.2.Validate p.1)) Errors.nil

/-- Nested (`Nested`) creates a composite validator, which will delegate the
validation work to its inner schema: on each invocation it builds a fresh
schema pairing `F(field.Name + "." + f.Name, f.ValuePtr)` with the inner
validator, and returns the result of `Validate` on it unchanged. -/
def Nested (schema : Schema) : Validator :=
  FromFunc fun field =>
    let nestedSchema : Schema :=
      schema.map fun p => (F (field.name ++ "." ++ p.1.name) p.1.valuePtr, p.2)
    Validate nestedSchema

/-- NestedMulti (`NestedMulti`) creates a composite validator, which will delegate the
validation work to its inner multiple schemas, which are returned by
calling `f` once at construction time; each call then evaluates every
child, extending the accumulator with each non-nil child result. -/
def NestedMulti (f : Unit → List Schema) : Validator :=
  let schemas := f ()
  let validators := schemas.map Nested
  FromFunc fun field =>
    validators.foldl
      (fun errs v =>
        let err := v.Validate field
        if err ≠ Errors.nil then errs.Extend err else errs)
      Errors.nil

/-- Lazy (`Lazy`) creates a leaf validator, which will call `f` on every
invocation and delegate the validation work to the returned validator. -/
def Lazy (f : Unit → Validator) : Validator :=
  FromFunc fun field => (f ()).Validate field

/-! ## Helper lemmas -/

/-- An error collection is well formed when it is not the non-nil empty
collection; the spec invariant "no errors is represented as a
distinguishable absent state, never an empty-but-present collection". -/
def Errors.WF (e : Errors) : Prop := e ≠ some ([] : List Err)

/-- An error collection carries no records when it is nil or non-nil
empty; extending by such a collection is a no-op. -/
def Errors.emptyish (e : Errors) : Prop :=
  e = Errors.nil ∨ e = some ([] : List Err)

theorem Errors.extend_emptyish (e other : Errors) (h : other.emptyish) :
    e.Extend other = e := by
  rcases h with h | h <;> subst h <;> rfl

theorem Errors.extend_not_emptyish (e : Errors) (l : List Err) (hl : l ≠ []) :
    e.Extend (some l) = some ((e.getD []) ++ l) := by
  match l, hl with
  | a :: l, _ =>
    show Errors.Extend e (some (a :: l)) = _
    match e with
    | (none : Option (List Err)) => rfl
    | some l0 => rfl

theorem Errors.extend_ne_nil (e : Errors) (l : List Err) (hl : l ≠ []) :
    e.Extend (some l) ≠ Errors.nil := by
  rw [Errors.extend_not_emptyish e l hl]
  intro h
  exact Option.noConfusion h

theorem Errors.extend_WF (e other : Errors) (he : e.WF) : (e.Extend other).WF := by
  match other with
  | (none : Option (List Err)) => exact he
  | some [] => exact he
  | some (a :: l) =>
    rw [Errors.extend_not_emptyish e (a :: l) (by simp)]
    intro h
    exact absurd (Option.some.inj h) (by simp)

theorem Errors.extend_stays_ne_nil (e other : Errors)
    (he : e ≠ Errors.nil) : e.Extend other ≠ Errors.nil := by
  match other with
  | (none : Option (List Err)) => exact he
  | some [] => exact he
  | some (a :: l) => exact Errors.extend_ne_nil e (a :: l) (by simp)

/-- The loop of `All` skips a prefix of succeeding validators. -/
theorem allLoop_append_ok (field : Field) (pre rest : List Validator)
    (h : ∀ u ∈ pre, u.Validate field = Errors.nil) :
    allLoop field (pre ++ rest) = allLoop field rest := by
  induction pre with
  | nil => rfl
  | cons u pre ih =>
    have hu : u.Validate field = Errors.nil := h u (List.mem_cons_self u pre)
    simp only [List.cons_append, allLoop, hu, ne_eq, not_true_eq_false, if_neg,
      not_not]
    exact ih fun v hv => h v (List.mem_cons_of_mem u hv)

/-- The loop of `All` returns nil exactly when every validator succeeds. -/
theorem allLoop_nil_iff (field : Field) (vs : List Validator) :
    allLoop field vs = Errors.nil ↔ ∀ v ∈ vs, v.Validate field = Errors.nil := by
  induction vs with
  | nil => simp [allLoop]
  | cons v rest ih =>
    by_cases hv : v.Validate field = Errors.nil
    · have hstep : allLoop field (v :: rest) = allLoop field rest := by
        simp [allLoop, hv]
      rw [hstep, ih]
      constructor
      · intro h u hu
        rcases List.mem_cons.mp hu with rfl | hu2
        · exact hv
        · exact h u hu2
      · intro h u hu
        exact h u (List.mem_cons_of_mem v hu)
    · have hstep : allLoop field (v :: rest) = v.Validate field := by
        simp [allLoop, hv]
      rw [hstep]
      constructor
      · intro h
        exact absurd h hv
      · intro h
        exact absurd (h v (List.mem_cons_self v rest)) hv

/-- Concatenation, in order, of a list of error collections, using the
Extend operation of the Errors container starting from the nil state. -/
def concatErrors (es : List Errors) : Errors :=
  es.foldl Errors.Extend Errors.nil

/-- When no validator succeeds, `anyLoop` is the fold of Extend over the
individual results. -/
theorem anyLoop_all_fail (field : Field) (vs : List Validator) (errs : Errors)
    (h : ∀ v ∈ vs, v.Validate field ≠ Errors.nil) :
    anyLoop field errs vs = (vs.map (fun v => v.Validate field)).foldl Errors.Extend errs := by
  induction vs generalizing errs with
  | nil => rfl
  | cons v rest ih =>
    have hv : v.Validate field ≠ Errors.nil := h v (List.mem_cons_self v rest)
    have hstep : anyLoop field errs (v :: rest) =
        anyLoop field (errs.Extend (v.Validate field)) rest := by
      simp [anyLoop, hv]
    rw [hstep, ih _ fun u hu => h u (List.mem_cons_of_mem v hu)]
    rfl

/-- When some validator succeeds, `anyLoop` returns nil whatever the
accumulator holds. -/
theorem anyLoop_of_success (field : Field) (vs : List Validator) (errs : Errors)
    (h : ∃ v ∈ vs, v.Validate field = Errors.nil) :
    anyLoop field errs vs = Errors.nil := by
  induction vs generalizing errs with
  | nil => exact absurd h (by simp)
  | cons v rest ih =>
    by_cases hv : v.Validate field = Errors.nil
    · simp [anyLoop, hv]
    · have hstep : anyLoop field errs (v :: rest) =
          anyLoop field (errs.Extend (v.Validate field)) rest := by
        simp [anyLoop, hv]
      rw [hstep]
      apply ih
      rcases h with ⟨u, hu, hunil⟩
      rcases List.mem_cons.mp hu with rfl | hu2
      · exact absurd hunil hv
      · exact ⟨u, hu2, hunil⟩

/-- When no validator succeeds and every result is well formed, `anyLoop`
started from a non-nil well-formed accumulator stays non-nil. -/
theorem anyLoop_ne_nil (field : Field) (vs : List Validator) (errs : Errors)
    (h : ∀ v ∈ vs, v.Validate field ≠ Errors.nil)
    (he : errs ≠ Errors.nil) :
    anyLoop field errs vs ≠ Errors.nil := by
  induction vs generalizing errs with
  | nil => exact he
  | cons v rest ih =>
    have hv : v.Validate field ≠ Errors.nil := h v (List.mem_cons_self v rest)
    have hstep : anyLoop field errs (v :: rest) =
        anyLoop field (errs.Extend (v.Validate field)) rest := by
      simp [anyLoop, hv]
    rw [hstep]
    exact ih _ (fun u hu => h u (List.mem_cons_of_mem v hu))
      (Errors.extend_stays_ne_nil errs _ he)

/-! ## Claim theorems -/

/-- C2: `All(vs...)` evaluates children in order and, at the first failing
child, returns the error collection of that child unchanged, independent of any
later child; it returns success exactly when every child succeeds; with no
children it always succeeds. -/
theorem all_conjunction_semantics :
    (∀ field : Field, (All []).Validate field = Errors.nil) ∧
    (∀ (vs : List Validator) (field : Field),
      (All vs).Validate field = Errors.nil ↔
        ∀ v ∈ vs, v.Validate field = Errors.nil) ∧
    (∀ (pre : List Validator) (v : Validator) (post : List Validator) (field : Field),
      (∀ u ∈ pre, u.Validate field = Errors.nil) →
      v.Validate field ≠ Errors.nil →
      (All (pre ++ v :: post)).Validate field = v.Validate field) := by
  refine ⟨fun field => rfl, fun vs field => allLoop_nil_iff field vs, ?_⟩
  intro pre v post field hpre hv
  show allLoop field (pre ++ v :: post) = v.Validate field
  rw [allLoop_append_ok field pre (v :: post) hpre]
  simp [allLoop, hv]

/-- A validator that fails with the single message `m1` on the name of the
field, used as a concrete input of witnesses. -/
def failing1 : Validator := FromFunc fun field => NewErrors field.name "m1"

/-- A validator that fails with the single message `m2` on the name of the
field, used as a concrete input of witnesses. -/
def failing2 : Validator := FromFunc fun field => NewErrors field.name "m2"

/-- A validator that always succeeds, used as a concrete input of
witnesses. -/
def succeeding : Validator := FromFunc fun _ => Errors.nil

/-- A validator that returns the non-nil empty error collection, used as a
concrete input of witnesses. -/
def emptyFailing : Validator := FromFunc fun _ => some ([] : List Err)

/-- A concrete field used by witnesses. -/
def field0 : Field := F "x" (.string "s")

theorem all_conjunction_semantics_witness :
    (All [succeeding, failing1, failing2]).Validate field0 = NewErrors "x" "m1" :=
  all_conjunction_semantics.2.2 [succeeding] failing1 [failing2] field0
    (by intro u hu; simp at hu; subst hu; rfl)
    (by decide)

/-- C1: `Any(vs...)` returns success exactly when some child succeeds (for
a nonempty child list, children whose results respect the nil-vs-empty
invariant of the Errors container); when every child fails it returns the
concatenation, in evaluation order, of the error collections of all
children; with no children it returns success. -/
theorem any_disjunction_semantics :
    (∀ field : Field, (Any []).Validate field = Errors.nil) ∧
    (∀ (vs : List Validator) (field : Field),
      vs ≠ [] →
      (∀ v ∈ vs, (v.Validate field).WF) →
      ((Any vs).Validate field = Errors.nil ↔
        ∃ v ∈ vs, v.Validate field = Errors.nil)) ∧
    (∀ (vs : List Validator) (field : Field),
      (∀ v ∈ vs, v.Validate field ≠ Errors.nil) →
      (Any vs).Validate field = concatErrors (vs.map fun v => v.Validate field)) := by
  refine ⟨fun field => rfl, ?_, ?_⟩
  · intro vs field hne hwf
    constructor
    · intro h
      by_contra hno
      push_neg at hno
      have hfail : ∀ v ∈ vs, v.Validate field ≠ Errors.nil := hno
      match vs, hne with
      | v :: rest, _ =>
        have hv : v.Validate field ≠ Errors.nil := hfail v (List.mem_cons_self v rest)
        have hstep : (Any (v :: rest)).Validate field =
            anyLoop field (Errors.nil.Extend (v.Validate field)) rest := by
          show anyLoop field Errors.nil (v :: rest) = _
          simp only [anyLoop]
          rw [if_neg hv]
        rw [hstep] at h
        have hwfv : (v.Validate field).WF := hwf v (List.mem_cons_self v rest)
        have hne2 : Errors.nil.Extend (v.Validate field) ≠ Errors.nil := by
          cases hv2 : v.Validate field with
          | none => exact absurd hv2 hv
          | some l =>
            cases l with
            | nil => exact absurd hv2 hwfv
            | cons a l =>
              exact Errors.extend_ne_nil Errors.nil (a :: l) (by simp)
        exact anyLoop_ne_nil field rest _
          (fun u hu => hfail u (List.mem_cons_of_mem v hu)) hne2 h
    · intro h
      exact anyLoop_of_success field vs Errors.nil h
  · intro vs field hfail
    exact anyLoop_all_fail field vs Errors.nil hfail

theorem any_disjunction_semantics_witness :
    (Any [failing1, succeeding]).Validate field0 = Errors.nil :=
  (any_disjunction_semantics.2.1 [failing1, succeeding] field0 (by simp)
    (by
      intro v hv
      rcases List.mem_cons.mp hv with rfl | hv2
      · show failing1.Validate field0 ≠ some []
        decide
      · simp at hv2
        subst hv2
        show succeeding.Validate field0 ≠ some []
        decide)).mpr
    ⟨succeeding, by simp, rfl⟩

/-- C10: the combinators test whether a child result is nil, not whether
it is empty: `All` returns a non-nil child result verbatim, even when it
holds no records, and such a result is a failure (non-nil); `Any` does not
treat a non-nil empty child result as success: it keeps evaluating later
children and returns their errors. -/
theorem nil_vs_empty_distinction :
    (∀ (c : Validator) (field : Field) (e : Errors),
      e ≠ Errors.nil → c.Validate field = e → (All [c]).Validate field = e) ∧
    (∀ (c : Validator) (field : Field),
      c.Validate field = some ([] : List Err) →
      (All [c]).Validate field ≠ Errors.nil) ∧
    (∀ (c v2 : Validator) (field : Field) (l : List Err),
      c.Validate field = some ([] : List Err) →
      v2.Validate field = some l → l ≠ [] →
      (Any [c, v2]).Validate field = some l) := by
  refine ⟨?_, ?_, ?_⟩
  · intro c field e he hc
    show allLoop field [c] = e
    simp only [allLoop, hc]
    rw [if_pos he]
  · intro c field hc
    show allLoop field [c] ≠ Errors.nil
    simp only [allLoop, hc]
    rw [if_pos (by intro h; exact Option.noConfusion h)]
    intro h
    exact Option.noConfusion h
  · intro c v2 field l hc hv2 hl
    show anyLoop field Errors.nil [c, v2] = some l
    simp only [anyLoop, hc, hv2]
    rw [if_neg (fun h => Option.noConfusion h),
      if_neg (fun h => Option.noConfusion h)]
    rw [Errors.extend_emptyish Errors.nil (some []) (Or.inr rfl),
      Errors.extend_not_emptyish Errors.nil l hl]
    rfl

theorem nil_vs_empty_distinction_witness :
    (All [emptyFailing]).Validate field0 = some ([] : List Err) ∧
    (Any [emptyFailing, failing1]).Validate field0 = some [⟨"x", "m1"⟩] :=
  ⟨nil_vs_empty_distinction.1 emptyFailing field0 (some []) (by decide) rfl,
   nil_vs_empty_distinction.2.2 emptyFailing failing1 field0 [⟨"x", "m1"⟩]
     rfl rfl (by decide)⟩

/-- C9: for every leaf rule taking an optional custom message (Assert,
Nonzero, Len), zero messages select the default message of the rule, one
message selects it, and two or more messages abort construction (the
`getMsg` panic, modelled as `none`) rather than building a validator. -/
theorem message_selection :
    (∀ b : Bool, Assert b [] = some (FromFunc (assertValidate b "is invalid"))) ∧
    (∀ (b : Bool) (m : String), Assert b [m] = some (FromFunc (assertValidate b m))) ∧
    (∀ (b : Bool) (msgs : List String), 2 ≤ msgs.length → Assert b msgs = none) ∧
    (Nonzero [] = some (FromFunc (nonzeroValidate "is zero valued"))) ∧
    (∀ m : String, Nonzero [m] = some (FromFunc (nonzeroValidate m))) ∧
    (∀ msgs : List String, 2 ≤ msgs.length → Nonzero msgs = none) ∧
    (∀ mn mx : Int, Len mn mx [] =
      some (FromFunc (lenValidate mn mx "with an invalid length"))) ∧
    (∀ (mn mx : Int) (m : String), Len mn mx [m] =
      some (FromFunc (lenValidate mn mx m))) ∧
    (∀ (mn mx : Int) (msgs : List String), 2 ≤ msgs.length → Len mn mx msgs = none) := by
  have hbig : ∀ (n d : String) (msgs : List String),
      2 ≤ msgs.length → getMsg n d msgs = none := by
    intro n d msgs hlen
    match msgs, hlen with
    | a :: b :: rest, _ => rfl
  refine ⟨fun b => rfl, fun b m => rfl, ?_, rfl, fun m => rfl, ?_,
    fun mn mx => rfl, fun mn mx m => rfl, ?_⟩
  · intro b msgs hlen
    show (getMsg "Assert" "is invalid" msgs).map _ = none
    rw [hbig _ _ msgs hlen]
    rfl
  · intro msgs hlen
    show (getMsg "Nonzero" "is zero valued" msgs).map _ = none
    rw [hbig _ _ msgs hlen]
    rfl
  · intro mn mx msgs hlen
    show (getMsg "Len" "with an invalid length" msgs).map _ = none
    rw [hbig _ _ msgs hlen]
    rfl

theorem message_selection_witness :
    Assert true ["custom", "extra"] = none ∧
    Nonzero ["custom", "extra"] = none ∧
    Len 1 5 ["custom", "extra"] = none :=
  ⟨message_selection.2.2.1 true ["custom", "extra"] (by decide),
   message_selection.2.2.2.2.2.1 ["custom", "extra"] (by decide),
   message_selection.2.2.2.2.2.2.2.2 1 5 ["custom", "extra"] (by decide)⟩

/-- C6: on a value of unrecognized kind, `Nonzero` fails with the fixed
message "of unrecognized type" and `Len` with the fixed message "of an
unrecognized type", whatever the field name, the resolved custom or default
message, and the bounds. -/
theorem unrecognized_fixed_diagnostic :
    ∀ (msg name typeName : String) (mn mx : Int),
      nonzeroValidate msg ⟨name, .unrecognized typeName⟩ =
        NewErrors name "of unrecognized type" ∧
      lenValidate mn mx msg ⟨name, .unrecognized typeName⟩ =
        NewErrors name "of an unrecognized type" :=
  fun _ _ _ _ _ => ⟨rfl, rfl⟩

/-- The expected verdict of `Nonzero` according to the words of the claim:
on a plain scalar, valid when the value differs from the zero value of the
kind (for instants, the canonical zero instant); on a nullable scalar,
valid when the optional is present, regardless of the contained value; on a
sequence of a recognized scalar kind, valid when the length of the sequence
is nonzero; `none` on an unrecognized kind. -/
def nonzeroClaimSpec : Value → Option Bool
  | .uint8 v => some (decide (v ≠ 0))
  | .optUint8 v => some v.isSome
  | .seqUint8 v => some (decide (v.length ≠ 0))
  | .uint16 v => some (decide (v ≠ 0))
  | .optUint16 v => some v.isSome
  | .seqUint16 v => some (decide (v.length ≠ 0))
  | .uint32 v => some (decide (v ≠ 0))
  | .optUint32 v => some v.isSome
  | .seqUint32 v => some (decide (v.length ≠ 0))
  | .uint64 v => some (decide (v ≠ 0))
  | .optUint64 v => some v.isSome
  | .seqUint64 v => some (decide (v.length ≠ 0))
  | .int8 v => some (decide (v ≠ 0))
  | .optInt8 v => some v.isSome
  | .seqInt8 v => some (decide (v.length ≠ 0))
  | .int16 v => some (decide (v ≠ 0))
  | .optInt16 v => some v.isSome
  | .seqInt16 v => some (decide (v.length ≠ 0))
  | .int32 v => some (decide (v ≠ 0))
  | .optInt32 v => some v.isSome
  | .seqInt32 v => some (decide (v.length ≠ 0))
  | .int64 v => some (decide (v ≠ 0))
  | .optInt64 v => some v.isSome
  | .seqInt64 v => some (decide (v.length ≠ 0))
  | .float32 v => some (decide (v ≠ 0))
  | .optFloat32 v => some v.isSome
  | .seqFloat32 v => some (decide (v.length ≠ 0))
  | .float64 v => some (decide (v ≠ 0))
  | .optFloat64 v => some v.isSome
  | .seqFloat64 v => some (decide (v.length ≠ 0))
  | .uint v => some (decide (v ≠ 0))
  | .optUint v => some v.isSome
  | .seqUint v => some (decide (v.length ≠ 0))
  | .int v => some (decide (v ≠ 0))
  | .optInt v => some v.isSome
  | .seqInt v => some (decide (v.length ≠ 0))
  | .bool v => some (decide (v ≠ false))
  | .optBool v => some v.isSome
  | .seqBool v => some (decide (v.length ≠ 0))
  | .string v => some (decide (v ≠ ""))
  | .optString v => some v.isSome
  | .seqString v => some (decide (v.length ≠ 0))
  | .time v => some (decide (v ≠ (⟨0, 0⟩ : GoTime)))
  | .optTime v => some v.isSome
  | .seqTime v => some (decide (v.length ≠ 0))
  | .unrecognized _ => none

/-- The dispatch switch of `Nonzero` computes exactly the verdict the
claim describes, kind by kind. -/
theorem nonzeroCheck_eq_claim (v : Value) : nonzeroCheck v = nonzeroClaimSpec v := by
  cases v <;>
    simp only [nonzeroCheck, nonzeroClaimSpec, Option.some.injEq] <;>
    rw [Bool.eq_iff_iff] <;>
    simp [bne_iff_ne, Option.isSome_iff_ne_none, GoTime.IsZero, GoTime.mk.injEq] <;>
    (rename_i t; obtain ⟨s, ns⟩ := t; simp only [GoTime.mk.injEq, not_and_or])

/-- C4: `Nonzero()` succeeds exactly as the claim describes, for every
recognized kind (the kinds on which `nonzeroClaimSpec` yields a verdict):
plain scalars when the value differs from the zero value of the kind,
nullable scalars when the optional is present, sequences when the length is
nonzero; on failure it returns the single error pairing the name of the
field with the resolved message; in addition, an instant at the Unix epoch
is not the zero instant and passes. -/
theorem nonzero_semantics :
    (∀ (msg name : String) (v : Value) (b : Bool),
      nonzeroClaimSpec v = some b →
      ((nonzeroValidate msg ⟨name, v⟩ = Errors.nil ↔ b = true) ∧
       (b = false → nonzeroValidate msg ⟨name, v⟩ = NewErrors name msg))) ∧
    (∀ msg name : String,
      nonzeroValidate msg ⟨name, .time unixEpoch⟩ = Errors.nil) := by
  constructor
  · intro msg name v b hb
    have hcheck : nonzeroCheck v = some b := by
      rw [nonzeroCheck_eq_claim v]
      exact hb
    have hval : nonzeroValidate msg ⟨name, v⟩ =
        if !b then NewErrors name msg else Errors.nil := by
      simp only [nonzeroValidate]
      rw [hcheck]
    rw [hval]
    cases b <;> simp [NewErrors, Errors.nil]
  · intro msg name
    rfl

theorem nonzero_semantics_witness :
    nonzeroClaimSpec (.int 0) = some false ∧
    nonzeroValidate "is zero valued" ⟨"age", .int 0⟩ =
      NewErrors "age" "is zero valued" :=
  ⟨rfl, (nonzero_semantics.1 "is zero valued" "age" (.int 0) false rfl).2 rfl⟩

/-- The kinds the claim calls length-bearing, with their length: a string
(its element count) or a sequence of any recognized scalar element kind
(its element count); `none` on every other kind. -/
def lengthBearing : Value → Option Nat
  | .string v => some v.length
  | .seqUint8 v => some v.length
  | .seqUint16 v => some v.length
  | .seqUint32 v => some v.length
  | .seqUint64 v => some v.length
  | .seqInt8 v => some v.length
  | .seqInt16 v => some v.length
  | .seqInt32 v => some v.length
  | .seqInt64 v => some v.length
  | .seqFloat32 v => some v.length
  | .seqFloat64 v => some v.length
  | .seqUint v => some v.length
  | .seqInt v => some v.length
  | .seqBool v => some v.length
  | .seqString v => some v.length
  | .seqTime v => some v.length
  | _ => none

/-- C5: on every length-bearing value, `Len(min, max)` succeeds exactly
when the length lies within the inclusive bounds, and consequently fails on
every such value when min exceeds max. -/
theorem len_range_semantics :
    ∀ (mn mx : Int) (msg name : String) (v : Value) (L : Nat),
      lengthBearing v = some L →
      ((lenValidate mn mx msg ⟨name, v⟩ = Errors.nil ↔
         mn ≤ (L : Int) ∧ (L : Int) ≤ mx) ∧
       (mn > mx → lenValidate mn mx msg ⟨name, v⟩ = NewErrors name msg)) := by
  intro mn mx msg name v L hL
  have hd : lenDispatch v = .lenOf L := by
    cases v <;> simp_all [lengthBearing, lenDispatch]
  have hval : lenValidate mn mx msg ⟨name, v⟩ =
      if !(decide ((L : Int) ≥ mn) && decide ((L : Int) ≤ mx)) then NewErrors name msg
      else Errors.nil := by
    simp only [lenValidate]
    rw [hd]
  rw [hval]
  cases hb : (decide ((L : Int) ≥ mn) && decide ((L : Int) ≤ mx)) with
  | false =>
    have hno : ¬(mn ≤ (L : Int) ∧ (L : Int) ≤ mx) := by
      intro hand
      have htrue : (decide ((L : Int) ≥ mn) && decide ((L : Int) ≤ mx)) = true := by
        simp [ge_iff_le, hand.1, hand.2]
      rw [hb] at htrue
      exact Bool.noConfusion htrue
    constructor
    · simp only [Bool.not_false, if_true]
      constructor
      · intro hnil
        exact absurd (Option.noConfusion hnil) id
      · intro hand
        exact absurd hand hno
    · intro _
      rfl
  | true =>
    have hand : mn ≤ (L : Int) ∧ (L : Int) ≤ mx := by
      simp only [Bool.and_eq_true, decide_eq_true_eq, ge_iff_le] at hb
      exact hb
    constructor
    · simp [hand]
    · intro hgt
      exfalso
      omega

theorem len_range_semantics_witness :
    lengthBearing (.string "abc") = some 3 ∧
    lenValidate 1 5 "with an invalid length" ⟨"name", .string "abc"⟩ = Errors.nil ∧
    lenValidate 6 2 "with an invalid length" ⟨"name", .string "abc"⟩ =
      NewErrors "name" "with an invalid length" :=
  ⟨rfl,
   (len_range_semantics 1 5 "with an invalid length" "name" (.string "abc") 3
     rfl).1.mpr (by decide),
   (len_range_semantics 6 2 "with an invalid length" "name" (.string "abc") 3
     rfl).2 (by decide)⟩

/-- The kinds the amended claim places in the not-applicable group of
`Len`: every plain scalar numeric and boolean kind, every nullable scalar
kind including nullable string, date-time, and nullable date-time. -/
def lenNotApplicableClaim : Value → Bool
  | .uint8 _ | .uint16 _ | .uint32 _ | .uint64 _
  | .int8 _ | .int16 _ | .int32 _ | .int64 _
  | .float32 _ | .float64 _ | .uint _ | .int _
  | .bool _ => true
  | .optUint8 _ | .optUint16 _ | .optUint32 _ | .optUint64 _
  | .optInt8 _ | .optInt16 _ | .optInt32 _ | .optInt64 _
  | .optFloat32 _ | .optFloat64 _ | .optUint _ | .optInt _
  | .optBool _ | .optString _ => true
  | .time _ | .optTime _ => true
  | _ => false

/-- C3 counterexample: contrary to the claim, a nullable (optional) string
field is in the not-applicable group: `Len(1, 5)` on a present optional
string receives the fixed message, independent of the contained value. -/
theorem len_optional_string_counterexample :
    lenValidate 1 5 "with an invalid length" ⟨"s", .optString (some "abc")⟩ =
      NewErrors "s" "cannot use validator `Len`" := rfl

/-- C3 amended: exactly the kinds of the amended group (every plain scalar
numeric and boolean kind, every nullable scalar kind including nullable
string, date-time, and nullable date-time) fail immediately with the fixed
message "cannot use validator `Len`", independent of min, max, the value
and the resolved message; every kind outside the group (with a resolved
message distinct from the fixed one) never produces that error. -/
theorem len_not_applicable_exact :
    ∀ (mn mx : Int) (msg name : String) (v : Value),
      (lenNotApplicableClaim v = true →
        lenValidate mn mx msg ⟨name, v⟩ =
          NewErrors name "cannot use validator `Len`") ∧
      (lenNotApplicableClaim v = false →
        msg ≠ "cannot use validator `Len`" →
        lenValidate mn mx msg ⟨name, v⟩ ≠
          NewErrors name "cannot use validator `Len`") := by
  intro mn mx msg name v
  constructor
  · intro hgroup
    cases v <;> simp_all [lenNotApplicableClaim] <;> rfl
  · intro hgroup hmsg
    have hcase : (∃ L, lenDispatch v = .lenOf L) ∨ lenDispatch v = .unrecognized := by
      cases v <;> simp_all [lenNotApplicableClaim, lenDispatch]
    rcases hcase with ⟨L, hd⟩ | hd
    · have hval : lenValidate mn mx msg ⟨name, v⟩ =
          if !(decide ((L : Int) ≥ mn) && decide ((L : Int) ≤ mx)) then NewErrors name msg
          else Errors.nil := by
        simp only [lenValidate]
        rw [hd]
      rw [hval]
      cases (decide ((L : Int) ≥ mn) && decide ((L : Int) ≤ mx)) with
      | false =>
        intro h
        have : msg = "cannot use validator `Len`" := by
          have h2 := Option.some.inj h
          have h3 : Err.mk name msg = Err.mk name "cannot use validator `Len`" := by
            exact (List.cons.injEq _ _ _ _ ▸ h2).1
          exact (Err.mk.injEq _ _ _ _ ▸ h3).2
        exact absurd this hmsg
      | true =>
        intro h
        exact Option.noConfusion h
    · have hval : lenValidate mn mx msg ⟨name, v⟩ =
          NewErrors name "of an unrecognized type" := by
        simp only [lenValidate]
        rw [hd]
      rw [hval]
      intro h
      have h2 := Option.some.inj h
      simp [Err.mk.injEq] at h2

theorem len_not_applicable_exact_witness :
    lenValidate 0 10 "with an invalid length" ⟨"n", .int8 3⟩ =
      NewErrors "n" "cannot use validator `Len`" ∧
    lenValidate 0 10 "with an invalid length" ⟨"n", .string "abc"⟩ ≠
      NewErrors "n" "cannot use validator `Len`" :=
  ⟨(len_not_applicable_exact 0 10 "with an invalid length" "n" (.int8 3)).1 rfl,
   (len_not_applicable_exact 0 10 "with an invalid length" "n" (.string "abc")).2
     rfl (by decide)⟩

/-- C7: `Nested(schema)` builds on each invocation the schema pairing the
dotted path `field.Name + "." + f.Name` with the inner value reference and
validator, and returns the result of the external `Validate` on it
unchanged; concretely, a failing sub-field "city" under an outer field
"address" is reported under the exact name "address.city". -/
theorem nested_dotted_path :
    (∀ (schema : Schema) (field : Field),
      (Nested schema).Validate field =
        Validate (schema.map fun p =>
          (F (field.name ++ "." ++ p.1.name) p.1.valuePtr, p.2))) ∧
    ((Nested [(F "city" (.string ""),
        FromFunc (nonzeroValidate "is zero valued"))]).Validate
          (F "address" (.unrecognized "Address")) =
      NewErrors "address.city" "is zero valued") :=
  ⟨fun _ _ => rfl, rfl⟩

theorem Errors.nil_WF : (Errors.nil).WF := fun h => Option.noConfusion h

theorem Errors.extend_eq_nil_iff (e other : Errors) :
    e.Extend other = Errors.nil ↔ e = Errors.nil ∧ other.emptyish := by
  cases other with
  | none =>
    constructor
    · intro h
      exact ⟨h, Or.inl rfl⟩
    · intro h
      exact h.1
  | some l =>
    cases l with
    | nil =>
      constructor
      · intro h
        exact ⟨h, Or.inr rfl⟩
      · intro h
        exact h.1
    | cons a l =>
      constructor
      · intro h
        exact absurd h (Errors.extend_ne_nil e (a :: l) (by simp))
      · intro h
        rcases h.2 with h2 | h2
        · exact Option.noConfusion h2
        · exact absurd (Option.some.inj h2) (by simp)

theorem foldl_extend_eq_nil_iff (es : List Errors) (errs : Errors) :
    es.foldl Errors.Extend errs = Errors.nil ↔
      errs = Errors.nil ∧ ∀ e ∈ es, e.emptyish := by
  induction es generalizing errs with
  | nil => simp [List.foldl_nil]
  | cons e rest ih =>
    rw [List.foldl_cons, ih, Errors.extend_eq_nil_iff]
    constructor
    · intro ⟨⟨h1, h2⟩, h3⟩
      refine ⟨h1, ?_⟩
      intro x hx
      rcases List.mem_cons.mp hx with rfl | hx2
      · exact h2
      · exact h3 x hx2
    · intro ⟨h1, h2⟩
      exact ⟨⟨h1, h2 e (List.mem_cons_self e rest)⟩,
        fun x hx => h2 x (List.mem_cons_of_mem e hx)⟩

theorem Validate_WF (schema : Schema) : (Validate schema).WF := by
  have key : ∀ (l : List (Field × Validator)) (errs : Errors), errs.WF →
      (l.foldl (fun errs p => errs.Extend (p.2.Validate p.1)) errs).WF := by
    intro l
    induction l with
    | nil => exact fun errs h => h
    | cons p rest ih => exact fun errs h => ih _ (Errors.extend_WF _ _ h)
  exact key schema Errors.nil Errors.nil_WF

/-- The per-call loop of `NestedMulti` is the fold of Extend over the
results of the children (extending by a nil result is a no-op, so the
guard in the source changes nothing). -/
theorem nestedMulti_loop_eq (field : Field) :
    ∀ (vs : List Validator) (errs : Errors),
      vs.foldl
        (fun errs v =>
          let err := v.Validate field
          if err ≠ Errors.nil then errs.Extend err else errs) errs =
      (vs.map fun v => v.Validate field).foldl Errors.Extend errs := by
  intro vs
  induction vs with
  | nil => intro errs; rfl
  | cons v rest ih =>
    intro errs
    rw [List.map_cons, List.foldl_cons, List.foldl_cons, ← ih]
    by_cases hv : v.Validate field = Errors.nil
    · simp only [hv, ne_eq, not_true_eq_false, if_neg, not_not]
      rfl
    · simp only [ne_eq, hv, not_false_eq_true, if_pos]

/-- C8: `NestedMulti(f)` is determined by the single construction-time
call of the factory; each `Validate` call evaluates every child built by
wrapping the returned schemas with `Nested`, with no short-circuit,
returning the ordered concatenation of all child error collections, and
succeeds exactly when every child schema validates cleanly. -/
theorem nested_multi_semantics :
    (∀ f g : Unit → List Schema, f () = g () → NestedMulti f = NestedMulti g) ∧
    (∀ (f : Unit → List Schema) (field : Field),
      (NestedMulti f).Validate field =
        concatErrors ((f ()).map fun s => (Nested s).Validate field)) ∧
    (∀ (f : Unit → List Schema) (field : Field),
      ((NestedMulti f).Validate field = Errors.nil ↔
        ∀ s ∈ f (), (Nested s).Validate field = Errors.nil)) := by
  have heq : ∀ (f : Unit → List Schema) (field : Field),
      (NestedMulti f).Validate field =
        concatErrors ((f ()).map fun s => (Nested s).Validate field) := by
    intro f field
    show ((f ()).map Nested).foldl
        (fun errs v =>
          let err := v.Validate field
          if err ≠ Errors.nil then errs.Extend err else errs) Errors.nil = _
    rw [nestedMulti_loop_eq field]
    rw [List.map_map]
    rfl
  refine ⟨?_, heq, ?_⟩
  · intro f g h
    unfold NestedMulti
    rw [h]
  · intro f field
    rw [heq f field]
    show (((f ()).map fun s => (Nested s).Validate field).foldl Errors.Extend
      Errors.nil) = Errors.nil ↔ _
    rw [foldl_extend_eq_nil_iff]
    constructor
    · intro ⟨_, h2⟩ s hs
      have hemp : ((Nested s).Validate field).emptyish :=
        h2 _ (List.mem_map_of_mem _ hs)
      rcases hemp with h | h
      · exact h
      · exact absurd h (Validate_WF _)
    · intro h
      refine ⟨rfl, ?_⟩
      intro e he
      rcases List.mem_map.mp he with ⟨s, hs, rfl⟩
      exact Or.inl (h s hs)

theorem nested_multi_semantics_witness :
    NestedMulti (fun _ => [[(F "city" (.string ""),
        FromFunc (nonzeroValidate "is zero valued"))]]) =
      NestedMulti (fun _ =>
        [[(F "city" (.string ""), FromFunc (nonzeroValidate "is zero valued"))]] ++ []) :=
  nested_multi_semantics.1 _ _ rfl

end Validating
